import Mathlib

/-!
# Verification of the CKE-D substitution codec

Shallow embedding of the codec in `src/unnamed/part_001` (a user-keyed
substitution cipher: `generateKeyMap`, `cleanKey`, `getDuplicateChars`,
`isValidBase64`, `sanitizeBase64Input`, `encodeString`, `decodeString`,
`PRESETS.BASE64`).  JavaScript strings are modelled as `List Char`, the
`Map<string, number>` as an association list `List (Char × Nat)` extended
only at absent keys, and `parseInt(s, 10)` as an explicit `Option Int`
parser with the same skip-leading-whitespace / optional-sign / longest
leading digit-run behaviour.
-/

/-- The JavaScript whitespace class: the characters matched by the regex
class `\s`, which is also the set trimmed by `String.prototype.trim` and
skipped by `parseInt`. -/
def isJsWs (c : Char) : Bool :=
  decide (c.toNat = 9 ∨ c.toNat = 10 ∨ c.toNat = 11 ∨ c.toNat = 12 ∨ c.toNat = 13 ∨
    c.toNat = 32 ∨ c.toNat = 160 ∨ c.toNat = 5760 ∨
    (8192 ≤ c.toNat ∧ c.toNat ≤ 8202) ∨ c.toNat = 8232 ∨ c.toNat = 8233 ∨
    c.toNat = 8239 ∨ c.toNat = 8287 ∨ c.toNat = 12288 ∨ c.toNat = 65279)

/-- ASCII decimal digit test, codes 48 to 57 (the decoder's
`code >= 48 && code <= 57` check). -/
def isDigitChar (c : Char) : Bool :=
  decide (48 ≤ c.toNat ∧ c.toNat ≤ 57)

/-- Numeric value of an ASCII digit character. -/
def digitVal (c : Char) : Nat := c.toNat - 48

/-- The ASCII digit character for a value below ten. -/
def digitChar : Nat → Char
  | 0 => '0'
  | 1 => '1'
  | 2 => '2'
  | 3 => '3'
  | 4 => '4'
  | 5 => '5'
  | 6 => '6'
  | 7 => '7'
  | 8 => '8'
  | 9 => '9'
  | _ => '*'

/-- Value of a digit string read left to right in base ten. -/
def digitsVal (ds : List Char) : Nat :=
  ds.foldl (fun a c => 10 * a + digitVal c) 0

/-- Fuelled decimal rendering of a natural number (the fuel makes the
definition structurally recursive, so it reduces inside `decide`). -/
def natToDecF : Nat → Nat → List Char
  | 0, _ => []
  | fuel + 1, n =>
    if n < 10 then [digitChar n]
    else natToDecF fuel (n / 10) ++ [digitChar (n % 10)]

/-- Decimal rendering of a natural number, as produced by JavaScript's
`Number.prototype.toString` on the (nonnegative integer) map indices. -/
def natToDec (n : Nat) : List Char := natToDecF (n + 1) n

/-- The embedding of JavaScript `parseInt(s, 10)`: skip leading whitespace,
consume one optional sign, read the longest leading run of decimal digits;
`none` models `NaN` (no digits found). -/
def parseIntJS (s : List Char) : Option Int :=
  let s1 := s.dropWhile isJsWs
  let neg : Bool := s1.head? = some '-'
  let s2 : List Char := if s1.head? = some '-' ∨ s1.head? = some '+' then s1.tail else s1
  let ds := s2.takeWhile isDigitChar
  if ds = [] then none
  else if neg then some (-(digitsVal ds : Int)) else some ((digitsVal ds : Int))

/-- Source `generateKeyMap` loop: walk the key at position `i`, inserting
`char ↦ i + 1` only when `char` is not yet in the map. -/
def generateKeyMapAux (m : List (Char × Nat)) (i : Nat) : List Char → List (Char × Nat)
  | [] => m
  | c :: rest =>
    if List.lookup c m = none then generateKeyMapAux (m ++ [(c, i + 1)]) (i + 1) rest
    else generateKeyMapAux m (i + 1) rest

/-- Source `generateKeyMap`: character to 1-based first-occurrence index. -/
def generateKeyMap (key : List Char) : List (Char × Nat) :=
  generateKeyMapAux [] 0 key

/-- First-occurrence 0-based position of a character in a list (the
specification's notion of "first at 0-based position i"). -/
def firstIdx (c : Char) : List Char → Nat
  | [] => 0
  | d :: rest => if d = c then 0 else firstIdx c rest + 1

/-- Source `cleanKey` helper: keep each character the first time it is met
(`Array.from(new Set(key.split('')))` — a JS `Set` iterates in insertion
order, so exactly the first occurrences survive, in original order). -/
def cleanKeyAux (seen : List Char) : List Char → List Char
  | [] => []
  | c :: cs => if c ∈ seen then cleanKeyAux seen cs else c :: cleanKeyAux (c :: seen) cs

/-- Source `cleanKey`: remove duplicate characters, keeping first occurrences. -/
def cleanKey (key : List Char) : List Char := cleanKeyAux [] key

/-- JS `Set.add` on a set modelled as an insertion-ordered duplicate-free list. -/
def setAdd (s : List Char) (c : Char) : List Char := if c ∈ s then s else s ++ [c]

/-- Source `getDuplicateChars` loop: track a `seen` set and collect into
`dups` every character met a second (or later) time. -/
def getDuplicateCharsAux (seen dups : List Char) : List Char → List Char
  | [] => dups
  | c :: cs =>
    getDuplicateCharsAux (setAdd seen c) (if c ∈ seen then setAdd dups c else dups) cs

/-- Source `getDuplicateChars`: the characters occurring more than once. -/
def getDuplicateChars (key : List Char) : List Char :=
  getDuplicateCharsAux [] [] key

/-- Membership in the regex class `[A-Za-z0-9+/=]` of the validator. -/
def isBase64Char (c : Char) : Bool :=
  decide ((65 ≤ c.toNat ∧ c.toNat ≤ 90) ∨ (97 ≤ c.toNat ∧ c.toNat ≤ 122) ∨
    (48 ≤ c.toNat ∧ c.toNat ≤ 57) ∨ c.toNat = 43 ∨ c.toNat = 47 ∨ c.toNat = 61)

/-- Source `isValidBase64`: empty strings pass; otherwise strip whitespace
(`str.replace(/\s/g, '')`) and require the regex `^[A-Za-z0-9+/=]+$`. -/
def isValidBase64 (str : List Char) : Bool :=
  if str = [] then true
  else if str.filter (fun c => !isJsWs c) = [] then true
  else (str.filter (fun c => !isJsWs c)).all isBase64Char

/-- Source `sanitizeBase64Input`: remove all whitespace characters. -/
def sanitizeBase64Input (str : List Char) : List Char :=
  str.filter (fun c => !isJsWs c)

/-- Result record of `encodeString` (`{ result, hasUnmapped }`). -/
structure EncodeResult where
  result : List Char
  hasUnmapped : Bool
deriving DecidableEq, Repr

/-- Result record of `decodeString` (`{ result, hasErrors }`). -/
structure DecodeResult where
  result : List Char
  hasErrors : Bool
deriving DecidableEq, Repr

/-- Body of the `encodeString` loop: for each input character in order, a
mapped character contributes its index rendered in decimal, an unmapped one
contributes itself and raises the flag when it is not whitespace
(`char.trim() !== ''`). Returns the token list and the flag. -/
def encodeChars (keyMap : List (Char × Nat)) : List Char → List (List Char) × Bool
  | [] => ([], false)
  | c :: cs =>
    let rest := encodeChars keyMap cs
    match List.lookup c keyMap with
    | some index => (natToDec index :: rest.1, rest.2)
    | none => ([c] :: rest.1, (!isJsWs c) || rest.2)

/-- JS `Array.prototype.join(separator)` on the token list. -/
def joinSep (sep : List Char) : List (List Char) → List Char
  | [] => []
  | [t] => t
  | t :: t2 :: ts => t ++ sep ++ joinSep sep (t2 :: ts)

/-- Source `encodeString`: empty input short-circuits, otherwise the tokens
from `encodeChars` are joined with the separator. -/
def encodeString (input : List Char) (keyMap : List (Char × Nat))
    (separator : List Char) : EncodeResult :=
  if input = [] then ⟨[], false⟩
  else
    let r := encodeChars keyMap input
    ⟨joinSep separator r.1, r.2⟩

/-- Continuous-mode decode loop (empty separator): one character at a time,
a digit is a single-digit index into the key (out-of-range digits are kept
and flagged), any other character passes through, flagged when not
whitespace. -/
def decodeContinuous (key : List Char) : List Char → List Char × Bool
  | [] => ([], false)
  | c :: cs =>
    let rest := decodeContinuous key cs
    if 48 ≤ c.toNat ∧ c.toNat ≤ 57 then
      let index := digitVal c
      if 0 < index ∧ index ≤ key.length then
        (key.getD (index - 1) '?' :: rest.1, rest.2)
      else (c :: rest.1, true)
    else
      (c :: rest.1, (!isJsWs c) || rest.2)

/-- The embedding of `encoded.split(/\s+/)`: split on maximal runs of one or
more whitespace characters, leftmost-first, with a leading (resp. trailing)
empty piece exactly when the text starts (resp. ends) with whitespace. The
recursion merges a whitespace character into the run started by the next
character when that one is whitespace too. -/
def splitWs : List Char → List (List Char)
  | [] => [[]]
  | c :: rest =>
    if isJsWs c then
      match rest with
      | [] => [[], []]
      | d :: _ => if isJsWs d then splitWs rest else [] :: splitWs rest
    else
      match splitWs rest with
      | [] => [[c]]
      | t :: ts => (c :: t) :: ts

/-- Leading-segment test: `isPre a b` holds when `b` starts with `a`. -/
def isPre : List Char → List Char → Bool
  | [], _ => true
  | _ :: _, [] => false
  | a :: as, b :: bs => a == b && isPre as bs

/-- The embedding of `encoded.split(separator)` for a non-empty literal
separator: scan left to right, cutting at each (non-overlapping, leftmost)
occurrence of the separator. -/
def splitOnL (sep : List Char) (s : List Char) : List (List Char) :=
  match s with
  | [] => [[]]
  | c :: rest =>
    if h : sep ≠ [] ∧ isPre sep (c :: rest) = true then
      [] :: splitOnL sep ((c :: rest).drop sep.length)
    else
      match splitOnL sep rest with
      | [] => [[c]]
      | t :: ts => (c :: t) :: ts
termination_by s.length
decreasing_by
· simp only [List.length_drop, List.length_cons]
  have : 0 < sep.length := List.length_pos.mpr h.1
  omega
· simp [Nat.lt_succ_self]

/-- Separator-mode decode loop: skip empty parts; parse each part with
`parseInt`; in-range indices decode through the key, anything else is kept
verbatim with the error flag raised. -/
def decodeParts (key : List Char) : List (List Char) → List Char × Bool
  | [] => ([], false)
  | p :: ps =>
    if p = [] then decodeParts key ps
    else
      let rest := decodeParts key ps
      match parseIntJS p with
      | some index =>
        if 0 < index ∧ index ≤ (key.length : Int) then
          (key.getD ((index - 1).toNat) '?' :: rest.1, rest.2)
        else (p ++ rest.1, true)
      | none => (p ++ rest.1, true)

/-- Source `decodeString`: empty encoded text or empty key short-circuits;
an empty separator selects continuous mode; otherwise the text is split
(on whitespace runs when the separator is a single space, else on literal
separator occurrences) and the parts are decoded. -/
def decodeString (encoded key separator : List Char) : DecodeResult :=
  if encoded = [] ∨ key = [] then ⟨[], false⟩
  else if separator = [] then
    let r := decodeContinuous key encoded
    ⟨r.1, r.2⟩
  else
    let parts := if separator = ['\x20'] then splitWs encoded else splitOnL separator encoded
    let r := decodeParts key parts
    ⟨r.1, r.2⟩

/-- Source `PRESETS.BASE64`, the default key constant. -/
def PRESETS_BASE64 : List Char :=
  "ABCDEFGHIJKLMNOPQRSTUVWXYZabcdefghijklmnopqrstuvwxyz0123456789+/=:;,-.".toList

/-! ## Specification-side definitions

The following definitions restate, in the specification's per-token and
per-character terms, what one step of each decoder mode does and how the
space separator splits; the theorems below compare the loops of the source
against them. -/

/-- Spec, continuous mode, one character: a digit in `[1, key.length]`
decodes through the key, any other character is kept unchanged. -/
def contChar (key : List Char) (c : Char) : Char :=
  if 48 ≤ c.toNat ∧ c.toNat ≤ 57 then
    if 0 < digitVal c ∧ digitVal c ≤ key.length then key.getD (digitVal c - 1) '?' else c
  else c

/-- Spec, continuous mode, one character: the error flag is raised by an
out-of-range digit or by a non-whitespace non-digit. -/
def contBad (key : List Char) (c : Char) : Bool :=
  if 48 ≤ c.toNat ∧ c.toNat ≤ 57 then
    decide (¬(0 < digitVal c ∧ digitVal c ≤ key.length))
  else !isJsWs c

/-- Spec, separator mode, one token: a token parsing to an index in
`[1, key.length]` decodes through the key; any other token is kept
verbatim. -/
def tokenDecode (key : List Char) (p : List Char) : List Char :=
  match parseIntJS p with
  | some index =>
    if 0 < index ∧ index ≤ (key.length : Int) then [key.getD ((index - 1).toNat) '?'] else p
  | none => p

/-- Spec, separator mode, one token: the error flag is raised when the parse
fails or the parsed index is out of `[1, key.length]`. -/
def tokenBad (key : List Char) (p : List Char) : Bool :=
  match parseIntJS p with
  | some index => decide (¬(0 < index ∧ index ≤ (key.length : Int)))
  | none => true

/-- Spec: "the key string with only the first occurrence of each character
retained, in original order" — keep the head and erase its later duplicates
before recursing, so by construction exactly the first occurrences survive,
in order. -/
def firstOccurrences : List Char → List Char
  | [] => []
  | c :: cs => c :: firstOccurrences (cs.filter fun d => decide (d ≠ c))
termination_by s => s.length
decreasing_by
· simp only [List.length_cons]
  exact Nat.lt_succ_of_le (List.length_filter_le _ _)

/-- Spec: the maximal runs of non-whitespace characters of a string, in
order — what "split on any run of one-or-more whitespace characters" leaves
once empty pieces are discarded. -/
def nonWsRuns : List Char → List (List Char)
  | [] => []
  | c :: rest =>
    if isJsWs c then nonWsRuns rest
    else (c :: rest.takeWhile fun x => !isJsWs x) :: nonWsRuns (rest.dropWhile fun x => !isJsWs x)
termination_by s => s.length
decreasing_by
· simp [Nat.lt_succ_self]
· have := (List.dropWhile_sublist (l := rest) fun x => !isJsWs x).length_le
  simp only [List.length_cons]
  omega

/-! ## Digit-string lemmas -/

theorem digit_not_ws {c : Char} (h : isDigitChar c = true) : isJsWs c = false := by
  simp only [isDigitChar, decide_eq_true_eq] at h
  simp only [isJsWs, decide_eq_false_iff_not]
  omega

theorem digitChar_toNat {n : Nat} (h : n < 10) : (digitChar n).toNat = 48 + n := by
  interval_cases n <;> decide

theorem digitChar_isDigit {n : Nat} (h : n < 10) : isDigitChar (digitChar n) = true := by
  interval_cases n <;> decide

theorem digitsVal_append (ds : List Char) (c : Char) :
    digitsVal (ds ++ [c]) = 10 * digitsVal ds + digitVal c := by
  simp [digitsVal, List.foldl_append]

theorem natToDecF_digits :
    ∀ (fuel n : Nat), n < fuel → ∀ c ∈ natToDecF fuel n, isDigitChar c = true := by
  intro fuel
  induction fuel with
  | zero => intro n hn; omega
  | succ f ih =>
      intro n hn c hc
      by_cases h10 : n < 10
      · simp only [natToDecF, if_pos h10, List.mem_singleton] at hc
        subst hc; exact digitChar_isDigit h10
      · simp only [natToDecF, if_neg h10, List.mem_append, List.mem_singleton] at hc
        rcases hc with hc | hc
        · exact ih (n / 10) (by omega) c hc
        · subst hc; exact digitChar_isDigit (Nat.mod_lt _ (by omega))

theorem natToDecF_ne_nil :
    ∀ (fuel n : Nat), n < fuel → natToDecF fuel n ≠ [] := by
  intro fuel
  induction fuel with
  | zero => intro n hn; omega
  | succ f _ =>
      intro n _
      by_cases h10 : n < 10
      · simp [natToDecF, h10]
      · simp [natToDecF, h10]

theorem natToDecF_val :
    ∀ (fuel n : Nat), n < fuel → digitsVal (natToDecF fuel n) = n := by
  intro fuel
  induction fuel with
  | zero => intro n hn; omega
  | succ f ih =>
      intro n hn
      by_cases h10 : n < 10
      · simp only [natToDecF, if_pos h10]
        simp only [digitsVal, List.foldl_cons, List.foldl_nil, digitVal,
          digitChar_toNat h10]
        omega
      · simp only [natToDecF, if_neg h10, digitsVal_append,
          ih (n / 10) (by omega), digitVal, digitChar_toNat (Nat.mod_lt _ (by omega))]
        omega

theorem natToDec_digits {n : Nat} : ∀ c ∈ natToDec n, isDigitChar c = true :=
  natToDecF_digits (n + 1) n (Nat.lt_succ_self n)

theorem natToDec_ne_nil {n : Nat} : natToDec n ≠ [] :=
  natToDecF_ne_nil (n + 1) n (Nat.lt_succ_self n)

theorem natToDec_val {n : Nat} : digitsVal (natToDec n) = n :=
  natToDecF_val (n + 1) n (Nat.lt_succ_self n)

theorem takeWhile_all {p : Char → Bool} :
    ∀ {l : List Char}, (∀ c ∈ l, p c = true) → l.takeWhile p = l := by
  intro l
  induction l with
  | nil => intro _; rfl
  | cons c cs ih =>
      intro h
      simp only [List.takeWhile_cons, h c (List.mem_cons_self c cs), if_true]
      rw [ih fun d hd => h d (List.mem_cons_of_mem c hd)]

theorem parseIntJS_natToDec (n : Nat) : parseIntJS (natToDec n) = some (n : Int) := by
  obtain ⟨d, ds, hds⟩ : ∃ d ds, natToDec n = d :: ds := by
    cases h : natToDec n with
    | nil => exact absurd h natToDec_ne_nil
    | cons d ds => exact ⟨d, ds, rfl⟩
  have hdig : ∀ c ∈ d :: ds, isDigitChar c = true := by
    rw [← hds]; exact natToDec_digits
  have hd : isDigitChar d = true := hdig d (List.mem_cons_self d ds)
  have hdrange : 48 ≤ d.toNat ∧ d.toNat ≤ 57 := by
    simpa [isDigitChar, decide_eq_true_eq] using hd
  have hdrop : (d :: ds).dropWhile isJsWs = d :: ds := by
    rw [List.dropWhile_cons]
    simp [digit_not_ws hd]
  have hdneg : ¬((d :: ds).head? = some '-' ∨ (d :: ds).head? = some '+') := by
    simp only [List.head?_cons, Option.some.injEq, not_or]
    constructor
    · intro h; subst h; simp at hdrange
    · intro h; subst h; simp at hdrange
  have hne : (d :: ds).takeWhile isDigitChar = d :: ds := takeWhile_all hdig
  simp only [parseIntJS, hds, hdrop, if_neg hdneg, hne]
  have hne2 : d :: ds ≠ [] := by simp
  rw [if_neg hne2]
  have hnm : ¬(decide ((d :: ds).head? = some '-') = true) := by
    simp only [decide_eq_true_eq]
    exact fun h => hdneg (Or.inl h)
  rw [if_neg hnm, ← hds, natToDec_val]

/-! ## Key-map lemmas -/

theorem lookup_append_single (m : List (Char × Nat)) (d : Char) (v : Nat) (c : Char) :
    List.lookup c (m ++ [(d, v)]) =
      (List.lookup c m).elim (if c = d then some v else none) some := by
  induction m with
  | nil =>
      by_cases h : c = d
      · simp [List.lookup, h]
      · have hb : (c == d) = false := beq_eq_false_iff_ne.mpr h
        simp [List.lookup, hb, h]
  | cons kv m ih =>
      obtain ⟨k, w⟩ := kv
      by_cases h : c = k
      · subst h
        simp [List.lookup]
      · have hb : (c == k) = false := beq_eq_false_iff_ne.mpr h
        simp [List.lookup, hb, ih]

theorem lookup_gkmAux :
    ∀ (key : List Char) (m : List (Char × Nat)) (i : Nat) (c : Char),
      List.lookup c (generateKeyMapAux m i key) =
        (List.lookup c m).elim
          (if c ∈ key then some (i + firstIdx c key + 1) else none) some := by
  intro key
  induction key with
  | nil =>
      intro m i c
      cases h : List.lookup c m <;> simp [generateKeyMapAux, h]
  | cons d rest ih =>
      intro m i c
      by_cases hdm : List.lookup d m = none
      · rw [generateKeyMapAux, if_pos hdm, ih]
        rw [lookup_append_single]
        by_cases hcd : c = d
        · subst hcd
          rw [hdm]
          simp [firstIdx]
        · cases hcm : List.lookup c m with
          | some v => simp
          | none =>
              simp only [Option.elim_none, if_neg hcd]
              by_cases hr : c ∈ rest
              · have : c ∈ d :: rest := List.mem_cons_of_mem d hr
                rw [if_pos hr, if_pos this]
                have hne : ¬(d = c) := fun h => hcd h.symm
                simp only [firstIdx, if_neg hne]
                congr 1
                omega
              · have : ¬(c ∈ d :: rest) := by
                  simp only [List.mem_cons, not_or]
                  exact ⟨hcd, hr⟩
                rw [if_neg hr, if_neg this]
      · rw [generateKeyMapAux, if_neg hdm, ih]
        cases hcm : List.lookup c m with
        | some v => simp
        | none =>
            have hcd : ¬(c = d) := by
              intro h
              subst h
              exact hdm hcm
            simp only [Option.elim_none]
            by_cases hr : c ∈ rest
            · have : c ∈ d :: rest := List.mem_cons_of_mem d hr
              rw [if_pos hr, if_pos this]
              have hne : ¬(d = c) := fun h => hcd h.symm
              simp only [firstIdx, if_neg hne]
              congr 1
              omega
            · have : ¬(c ∈ d :: rest) := by
                simp only [List.mem_cons, not_or]
                exact ⟨hcd, hr⟩
              rw [if_neg hr, if_neg this]

theorem firstIdx_lt_length {c : Char} :
    ∀ {key : List Char}, c ∈ key → firstIdx c key < key.length := by
  intro key
  induction key with
  | nil => intro h; exact absurd h (List.not_mem_nil c)
  | cons d rest ih =>
      intro h
      by_cases hd : d = c
      · simp [firstIdx, hd]
      · have hr : c ∈ rest := by
          rcases List.mem_cons.mp h with h1 | h1
          · exact absurd h1.symm hd
          · exact h1
        simp only [firstIdx, if_neg hd, List.length_cons]
        exact Nat.succ_lt_succ (ih hr)

theorem getD_firstIdx {c x : Char} :
    ∀ {key : List Char}, c ∈ key → key.getD (firstIdx c key) x = c := by
  intro key
  induction key with
  | nil => intro h; exact absurd h (List.not_mem_nil c)
  | cons d rest ih =>
      intro h
      by_cases hd : d = c
      · simp [firstIdx, hd]
      · have hr : c ∈ rest := by
          rcases List.mem_cons.mp h with h1 | h1
          · exact absurd h1.symm hd
          · exact h1
        simp only [firstIdx, if_neg hd, List.getD_cons_succ]
        exact ih hr

/-- C5: `generateKeyMap` maps each character of the key to its 1-based
first-occurrence position: a character `c` occurring in key `K` first at
0-based position `firstIdx c K` is assigned the value `firstIdx c K + 1`,
so later occurrences never change the stored value. -/
theorem generateKeyMap_maps_first_occurrence (key : List Char) (c : Char) (h : c ∈ key) :
    List.lookup c (generateKeyMap key) = some (firstIdx c key + 1) := by
  have haux := lookup_gkmAux key [] 0 c
  simpa [generateKeyMap, h] using haux

/-- Witness for C5 at the specification's example: in key "AAB" the
character A is mapped to 1 and B to 3 (its original-key position), not 2. -/
theorem generateKeyMap_maps_first_occurrence_witness :
    List.lookup 'A' (generateKeyMap ['A', 'A', 'B']) = some 1 ∧
    List.lookup 'B' (generateKeyMap ['A', 'A', 'B']) = some 3 := by
  constructor
  · have h := generateKeyMap_maps_first_occurrence ['A', 'A', 'B'] 'A' (by decide)
    rw [h]
    decide
  · have h := generateKeyMap_maps_first_occurrence ['A', 'A', 'B'] 'B' (by decide)
    rw [h]
    decide

/-! ## Key-cleaning lemmas -/

theorem mem_cleanKeyAux {c : Char} :
    ∀ {l seen : List Char}, c ∈ cleanKeyAux seen l ↔ (c ∈ l ∧ c ∉ seen) := by
  intro l
  induction l with
  | nil => intro seen; simp [cleanKeyAux]
  | cons d cs ih =>
      intro seen
      by_cases hd : d ∈ seen
      · rw [cleanKeyAux, if_pos hd, ih]
        constructor
        · rintro ⟨h1, h2⟩
          exact ⟨List.mem_cons_of_mem d h1, h2⟩
        · rintro ⟨h1, h2⟩
          rcases List.mem_cons.mp h1 with h1 | h1
          · subst h1; exact absurd hd h2
          · exact ⟨h1, h2⟩
      · rw [cleanKeyAux, if_neg hd]
        simp only [List.mem_cons, ih]
        constructor
        · rintro (h1 | ⟨h1, h2⟩)
          · subst h1; exact ⟨Or.inl rfl, hd⟩
          · refine ⟨Or.inr h1, fun hc => h2 (Or.inr hc)⟩
        · rintro ⟨h1 | h1, h2⟩
          · exact Or.inl h1
          · by_cases hcd : c = d
            · exact Or.inl hcd
            · refine Or.inr ⟨h1, ?_⟩
              simp only [List.mem_cons, not_or]
              exact ⟨hcd, h2⟩

theorem cleanKeyAux_nodup : ∀ (l seen : List Char), (cleanKeyAux seen l).Nodup := by
  intro l
  induction l with
  | nil => intro seen; simp [cleanKeyAux]
  | cons d cs ih =>
      intro seen
      by_cases hd : d ∈ seen
      · rw [cleanKeyAux, if_pos hd]; exact ih seen
      · rw [cleanKeyAux, if_neg hd]
        refine List.nodup_cons.mpr ⟨?_, ih (d :: seen)⟩
        intro hmem
        exact (mem_cleanKeyAux.mp hmem).2 (List.mem_cons_self d seen)

theorem cleanKeyAux_sublist : ∀ (l seen : List Char), List.Sublist (cleanKeyAux seen l) l := by
  intro l
  induction l with
  | nil => intro seen; simp [cleanKeyAux]
  | cons d cs ih =>
      intro seen
      by_cases hd : d ∈ seen
      · rw [cleanKeyAux, if_pos hd]
        exact (ih seen).cons d
      · rw [cleanKeyAux, if_neg hd]
        exact (ih (d :: seen)).cons₂ d

theorem cleanKeyAux_id :
    ∀ {l seen : List Char}, l.Nodup → (∀ c ∈ l, c ∉ seen) → cleanKeyAux seen l = l := by
  intro l
  induction l with
  | nil => intro seen _ _; rfl
  | cons d cs ih =>
      intro seen hnd hout
      have hd : d ∉ seen := hout d (List.mem_cons_self d cs)
      rw [cleanKeyAux, if_neg hd]
      congr 1
      refine ih (List.nodup_cons.mp hnd).2 ?_
      intro c hc
      simp only [List.mem_cons, not_or]
      refine ⟨?_, hout c (List.mem_cons_of_mem d hc)⟩
      intro hcd
      subst hcd
      exact (List.nodup_cons.mp hnd).1 hc

theorem gdcAux_of_nodup :
    ∀ {l seen dups : List Char}, l.Nodup → (∀ c ∈ l, c ∉ seen) →
      getDuplicateCharsAux seen dups l = dups := by
  intro l
  induction l with
  | nil => intro seen dups _ _; rfl
  | cons d cs ih =>
      intro seen dups hnd hout
      have hd : d ∉ seen := hout d (List.mem_cons_self d cs)
      rw [getDuplicateCharsAux, if_neg hd]
      refine ih (List.nodup_cons.mp hnd).2 ?_
      intro c hc
      simp only [setAdd, if_neg hd, List.mem_append, List.mem_singleton, not_or]
      refine ⟨hout c (List.mem_cons_of_mem d hc), ?_⟩
      intro hcd
      subst hcd
      exact (List.nodup_cons.mp hnd).1 hc

theorem firstOccurrences_nil : firstOccurrences [] = [] := by
  rw [firstOccurrences]

theorem firstOccurrences_cons (c : Char) (cs : List Char) :
    firstOccurrences (c :: cs) =
      c :: firstOccurrences (cs.filter fun d => decide (d ≠ c)) := by
  rw [firstOccurrences]

theorem cleanKeyAux_firstOccurrences :
    ∀ (l seen : List Char),
      cleanKeyAux seen l = firstOccurrences (l.filter fun d => decide (d ∉ seen)) := by
  intro l
  induction l with
  | nil =>
      intro seen
      rw [List.filter_nil, firstOccurrences_nil]
      rfl
  | cons c cs ih =>
      intro seen
      by_cases hc : c ∈ seen
      · rw [cleanKeyAux, if_pos hc]
        have hfil : (c :: cs).filter (fun d => decide (d ∉ seen)) =
            cs.filter (fun d => decide (d ∉ seen)) := by
          simp [List.filter_cons, hc]
        rw [hfil, ih seen]
      · rw [cleanKeyAux, if_neg hc]
        have hfil : (c :: cs).filter (fun d => decide (d ∉ seen)) =
            c :: cs.filter (fun d => decide (d ∉ seen)) := by
          simp [List.filter_cons, hc]
        rw [hfil, firstOccurrences_cons, ih (c :: seen)]
        congr 1
        rw [List.filter_filter]
        congr 1
        apply List.filter_congr
        intro d _
        by_cases hdc : d = c
        · subst hdc
          simp
        · by_cases hds : d ∈ seen
          · simp [hdc, hds]
          · simp [hdc, hds]

theorem cleanKey_eq_firstOccurrences (K : List Char) :
    cleanKey K = firstOccurrences K := by
  rw [cleanKey, cleanKeyAux_firstOccurrences K []]
  congr 1
  apply List.filter_eq_self.mpr
  intro d _
  simp

/-- C6: `cleanKey` returns the key with only the first occurrence of each
character retained, in original order (it equals the spec's first-occurrence
cleanup and is a duplicate-free sublist of the key with the same members);
it is idempotent, and the cleaned key has no duplicate characters according
to `getDuplicateChars`. -/
theorem cleanKey_idempotent_and_duplicate_free (K : List Char) :
    cleanKey K = firstOccurrences K ∧
    List.Sublist (cleanKey K) K ∧ (cleanKey K).Nodup ∧
    (∀ c : Char, c ∈ cleanKey K ↔ c ∈ K) ∧
    cleanKey (cleanKey K) = cleanKey K ∧ getDuplicateChars (cleanKey K) = [] := by
  have hnd : (cleanKey K).Nodup := cleanKeyAux_nodup K []
  refine ⟨cleanKey_eq_firstOccurrences K, cleanKeyAux_sublist K [], hnd, ?_, ?_, ?_⟩
  · intro c
    rw [cleanKey, mem_cleanKeyAux]
    simp
  · exact cleanKeyAux_id hnd (fun c _ => List.not_mem_nil c)
  · exact gdcAux_of_nodup hnd (fun c _ => List.not_mem_nil c)

/-- C8: empty-input postconditions — encoding the empty string, decoding the
empty string, and decoding with an empty key all return an empty result with
the flag down. -/
theorem empty_input_postconditions :
    ∀ (keyMap : List (Char × Nat)) (sep K X : List Char),
      encodeString [] keyMap sep = ⟨[], false⟩ ∧
      decodeString [] K sep = ⟨[], false⟩ ∧
      decodeString X [] sep = ⟨[], false⟩ := by
  intro m sep K X
  refine ⟨by simp [encodeString], by simp [decodeString], by simp [decodeString]⟩

/-- C9: `isValidBase64` accepts exactly the strings whose whitespace-stripped
form contains only characters of the Base64 alphabet (in particular every
all-whitespace or empty string), and the specification's two examples. -/
theorem isValidBase64_characterization :
    (∀ s : List Char,
      isValidBase64 s = (s.filter (fun c => !isJsWs c)).all isBase64Char) ∧
    isValidBase64 ['S', 'G', 'V', 's', 'b', 'G', '8', '=', '\n'] = true ∧
    isValidBase64 ['H', 'e', 'l', 'l', 'o', '!'] = false := by
  refine ⟨?_, by decide, by decide⟩
  intro s
  by_cases h1 : s = []
  · subst h1; simp [isValidBase64]
  · rw [isValidBase64, if_neg h1]
    by_cases h2 : s.filter (fun c => !isJsWs c) = []
    · rw [if_pos h2, h2]
      simp
    · rw [if_neg h2]

set_option maxRecDepth 8192 in
/-- C10: the built-in default key `PRESETS.BASE64` has no duplicate
characters: `getDuplicateChars` finds none and `cleanKey` leaves it
unchanged, so it satisfies the duplicate-free round-trip precondition. -/
theorem presets_base64_duplicate_free :
    getDuplicateChars PRESETS_BASE64 = [] ∧ cleanKey PRESETS_BASE64 = PRESETS_BASE64 := by
  exact ⟨by decide, by decide⟩

/-! ## Encoder and decoder loop characterizations -/

theorem encodeChars_eq (m : List (Char × Nat)) :
    ∀ l : List Char,
      encodeChars m l =
        (l.map fun c =>
          match List.lookup c m with
          | some index => natToDec index
          | none => [c],
         l.any fun c => (List.lookup c m).isNone && !isJsWs c) := by
  intro l
  induction l with
  | nil => rfl
  | cons c cs ih =>
      cases h : List.lookup c m with
      | some v => simp [encodeChars, h, ih]
      | none => simp [encodeChars, h, ih]

/-- C3: the encoder walks the input in order, turning each mapped character
into the decimal string of its index and keeping unmapped characters
verbatim, joins the tokens with the separator, and raises `hasUnmapped`
exactly when some unmapped character is not whitespace; in particular
encoding "AB C" under key "ABC" with separator " " yields "1 2   3" with the
flag down. -/
theorem encode_per_character_behavior :
    (∀ (input : List Char) (keyMap : List (Char × Nat)) (sep : List Char),
      encodeString input keyMap sep =
        ⟨joinSep sep (input.map fun c =>
            match List.lookup c keyMap with
            | some index => natToDec index
            | none => [c]),
          input.any fun c => (List.lookup c keyMap).isNone && !isJsWs c⟩) ∧
    encodeString ['A', 'B', '\x20', 'C'] (generateKeyMap ['A', 'B', 'C']) ['\x20'] =
      ⟨['1', '\x20', '2', '\x20', '\x20', '\x20', '3'], false⟩ := by
  refine ⟨?_, by decide⟩
  intro input m sep
  by_cases h : input = []
  · subst h; simp [encodeString, joinSep]
  · simp only [encodeString, if_neg h, encodeChars_eq]

theorem decodeContinuous_eq (key : List Char) :
    ∀ l : List Char,
      decodeContinuous key l = (l.map (contChar key), l.any (contBad key)) := by
  intro l
  induction l with
  | nil => rfl
  | cons c cs ih =>
      by_cases h1 : 48 ≤ c.toNat ∧ c.toNat ≤ 57
      · by_cases h2 : 0 < digitVal c ∧ digitVal c ≤ key.length
        · simp [decodeContinuous, contChar, contBad, h1, h2, ih]
        · simp [decodeContinuous, contChar, contBad, h1, h2, ih]
      · simp [decodeContinuous, contChar, contBad, h1, ih]

/-- C4: with an empty separator and non-empty encoded text and key, the
decoder maps each character independently — an in-range digit decodes
through the key, an out-of-range digit is kept and flagged, a non-digit is
kept and flagged only when it is not whitespace. -/
theorem decode_continuous_mode (encoded key : List Char)
    (h1 : encoded ≠ []) (h2 : key ≠ []) :
    decodeString encoded key [] =
      ⟨encoded.map (contChar key), encoded.any (contBad key)⟩ := by
  have hg : ¬(encoded = [] ∨ key = []) := by
    push_neg
    exact ⟨h1, h2⟩
  simp [decodeString, hg, decodeContinuous_eq]

/-- Witness for C4 at the specification's Scenario C: key "XYZ", continuous
decode of "12a3" gives "XYaZ" with `hasErrors` raised by the letter. -/
theorem decode_continuous_mode_witness :
    decodeString ['1', '2', 'a', '3'] ['X', 'Y', 'Z'] [] = ⟨['X', 'Y', 'a', 'Z'], true⟩ := by
  have h := decode_continuous_mode ['1', '2', 'a', '3'] ['X', 'Y', 'Z'] (by decide) (by decide)
  rw [h]
  decide

theorem decodeParts_eq (key : List Char) :
    ∀ ps : List (List Char),
      decodeParts key ps =
        (((ps.filter fun p => decide (p ≠ [])).map (tokenDecode key)).flatten,
          (ps.filter fun p => decide (p ≠ [])).any (tokenBad key)) := by
  intro ps
  induction ps with
  | nil => rfl
  | cons p ps ih =>
      by_cases hp : p = []
      · subst hp
        simp [decodeParts, ih]
      · rw [decodeParts, if_neg hp]
        cases h : parseIntJS p with
        | some v =>
            by_cases hin : 0 < v ∧ v ≤ (key.length : Int)
            · simp [h, hin, ih, tokenDecode, tokenBad, hp]
            · simp [h, hin, ih, tokenDecode, tokenBad, hp]
        | none => simp [h, ih, tokenDecode, tokenBad, hp]

/-- C2: in separator mode (non-empty separator, encoded text and key), each
non-empty token of the split is decoded independently: a token parsing to an
index in `[1, key.length]` contributes `key[index-1]`, and any other token
is appended verbatim while raising `hasErrors`; the results are concatenated
in order. -/
theorem decode_separator_tokens (encoded key sep : List Char)
    (hsep : sep ≠ []) (henc : encoded ≠ []) (hkey : key ≠ []) :
    decodeString encoded key sep =
      ⟨(((if sep = ['\x20'] then splitWs encoded else splitOnL sep encoded).filter
            fun p => decide (p ≠ [])).map (tokenDecode key)).flatten,
        ((if sep = ['\x20'] then splitWs encoded else splitOnL sep encoded).filter
            fun p => decide (p ≠ [])).any (tokenBad key)⟩ := by
  have hg : ¬(encoded = [] ∨ key = []) := by
    push_neg
    exact ⟨henc, hkey⟩
  simp only [decodeString, if_neg hg, if_neg hsep, decodeParts_eq]

/-- Witness for C2 at the specification's Scenario B: key "ABC", decoding
"1 2 5" with separator " " gives "AB5" with `hasErrors` raised by the
out-of-range token "5". -/
theorem decode_separator_tokens_witness :
    decodeString ['1', '\x20', '2', '\x20', '5'] ['A', 'B', 'C'] ['\x20'] =
      ⟨['A', 'B', '5'], true⟩ := by
  have h := decode_separator_tokens ['1', '\x20', '2', '\x20', '5'] ['A', 'B', 'C'] ['\x20']
    (by decide) (by decide) (by decide)
  rw [h]
  decide

/-! ## Split lemmas (literal separator) -/

theorem isPre_iff : ∀ (a b : List Char), isPre a b = true ↔ ∃ r, b = a ++ r := by
  intro a
  induction a with
  | nil =>
      intro b
      simp [isPre]
  | cons x as ih =>
      intro b
      cases b with
      | nil =>
          simp only [isPre, List.nil_eq, Bool.false_eq_true, false_iff, not_exists]
          intro r h
          exact absurd h (by simp)
      | cons y bs =>
          simp only [isPre, Bool.and_eq_true, beq_iff_eq, ih]
          constructor
          · rintro ⟨hxy, r, hr⟩
            subst hxy
            exact ⟨r, by rw [hr]; rfl⟩
          · rintro ⟨r, hr⟩
            rw [List.cons_append] at hr
            injection hr with h1 h2
            exact ⟨h1.symm, r, h2⟩

theorem isPre_nil_of_ne {sep : List Char} (h : sep ≠ []) : isPre sep [] = false := by
  cases sep with
  | nil => exact absurd rfl h
  | cons u us => rfl

theorem isPre_cons_of_ne_head {u c : Char} {us t : List Char} (h : u ≠ c) :
    isPre (u :: us) (c :: t) = false := by
  simp [isPre, beq_eq_false_iff_ne.mpr h]

theorem splitOnL_nil (sep : List Char) : splitOnL sep [] = [[]] := by
  rw [splitOnL]

theorem splitOnL_cons_pos {sep : List Char} (c : Char) (rest : List Char)
    (h1 : sep ≠ []) (h2 : isPre sep (c :: rest) = true) :
    splitOnL sep (c :: rest) = [] :: splitOnL sep ((c :: rest).drop sep.length) := by
  rw [splitOnL, dif_pos ⟨h1, h2⟩]

theorem splitOnL_cons_neg {sep : List Char} (c : Char) (rest : List Char)
    (h : ¬(sep ≠ [] ∧ isPre sep (c :: rest) = true)) :
    splitOnL sep (c :: rest) =
      match splitOnL sep rest with
      | [] => [[c]]
      | t :: ts => (c :: t) :: ts := by
  rw [splitOnL, dif_neg h]

theorem splitOnL_ne_nil (sep s : List Char) : splitOnL sep s ≠ [] := by
  cases s with
  | nil => rw [splitOnL_nil]; exact List.cons_ne_nil _ _
  | cons c rest =>
      by_cases h : sep ≠ [] ∧ isPre sep (c :: rest) = true
      · rw [splitOnL_cons_pos c rest h.1 h.2]
        exact List.cons_ne_nil _ _
      · rw [splitOnL_cons_neg c rest h]
        cases splitOnL sep rest with
        | nil => exact List.cons_ne_nil _ _
        | cons t ts => exact List.cons_ne_nil _ _

theorem splitOnL_head (sep : List Char) :
    ∀ (s t : List Char) (ts : List (List Char)),
      splitOnL sep s = t :: ts → ∃ r, s = t ++ r := by
  intro s
  induction s with
  | nil =>
      intro t ts h
      rw [splitOnL_nil] at h
      injection h with h1 _
      exact ⟨[], by rw [← h1]; rfl⟩
  | cons c rest ih =>
      intro t ts h
      by_cases hc : sep ≠ [] ∧ isPre sep (c :: rest) = true
      · rw [splitOnL_cons_pos c rest hc.1 hc.2] at h
        injection h with h1 _
        exact ⟨c :: rest, by rw [← h1]; rfl⟩
      · rw [splitOnL_cons_neg c rest hc] at h
        cases hr : splitOnL sep rest with
        | nil => exact absurd hr (splitOnL_ne_nil sep rest)
        | cons t0 ts0 =>
            rw [hr] at h
            injection h with h1 h2
            obtain ⟨r, hrest⟩ := ih t0 ts0 hr
            refine ⟨r, ?_⟩
            rw [← h1, hrest]
            rfl

theorem joinSep_cons_start (sep t : List Char) (ts : List (List Char)) :
    ∃ q, joinSep sep (t :: ts) = t ++ q := by
  cases ts with
  | nil => exact ⟨[], by rw [joinSep, List.append_nil]⟩
  | cons t2 ts2 =>
      exact ⟨sep ++ joinSep sep (t2 :: ts2), by rw [joinSep, List.append_assoc]⟩

theorem joinSep_splitOnL_aux (sep : List Char) (hsep : sep ≠ []) :
    ∀ (n : Nat) (s : List Char), s.length ≤ n → joinSep sep (splitOnL sep s) = s := by
  intro n
  induction n with
  | zero =>
      intro s hs
      have hs0 : s = [] := List.length_eq_zero.mp (Nat.le_zero.mp hs)
      subst hs0
      rw [splitOnL_nil]
      rfl
  | succ n ih =>
      intro s hs
      cases s with
      | nil => rw [splitOnL_nil]; rfl
      | cons c rest =>
          by_cases hc : isPre sep (c :: rest) = true
          · rw [splitOnL_cons_pos c rest hsep hc]
            obtain ⟨r, hr⟩ := (isPre_iff sep (c :: rest)).mp hc
            have hdrop : (c :: rest).drop sep.length = r := by
              rw [hr]
              exact List.drop_left sep r
            have hrlen : r.length ≤ n := by
              have h1 : (c :: rest).length = (sep ++ r).length := by rw [hr]
              have h2 : 0 < sep.length := List.length_pos.mpr hsep
              simp only [List.length_cons, List.length_append] at h1
              simp only [List.length_cons] at hs
              omega
            rw [hdrop]
            cases hsp : splitOnL sep r with
            | nil => exact absurd hsp (splitOnL_ne_nil sep r)
            | cons t ts =>
                have hrec := ih r hrlen
                rw [hsp] at hrec
                rw [joinSep, hrec, hr]
                rfl
          · rw [splitOnL_cons_neg c rest (fun hh => hc hh.2)]
            have hrlen : rest.length ≤ n := by
              simp only [List.length_cons] at hs
              omega
            cases hsp : splitOnL sep rest with
            | nil => exact absurd hsp (splitOnL_ne_nil sep rest)
            | cons t ts =>
                have hrec := ih rest hrlen
                rw [hsp] at hrec
                cases ts with
                | nil =>
                    rw [joinSep] at hrec ⊢
                    rw [hrec]
                | cons t2 ts2 =>
                    rw [joinSep] at hrec ⊢
                    simp only [List.cons_append]
                    rw [hrec]

theorem joinSep_splitOnL (sep s : List Char) (hsep : sep ≠ []) :
    joinSep sep (splitOnL sep s) = s :=
  joinSep_splitOnL_aux sep hsep s.length s (Nat.le_refl _)

theorem splitOnL_no_occurrence_aux (sep : List Char) (hsep : sep ≠ []) :
    ∀ (n : Nat) (s : List Char), s.length ≤ n →
      ∀ t ∈ splitOnL sep s, ∀ i, isPre sep (t.drop i) = false := by
  intro n
  induction n with
  | zero =>
      intro s hs t ht i
      have hs0 : s = [] := List.length_eq_zero.mp (Nat.le_zero.mp hs)
      subst hs0
      rw [splitOnL_nil, List.mem_singleton] at ht
      subst ht
      rw [List.drop_nil]
      exact isPre_nil_of_ne hsep
  | succ n ih =>
      intro s hs t ht i
      cases s with
      | nil =>
          rw [splitOnL_nil, List.mem_singleton] at ht
          subst ht
          rw [List.drop_nil]
          exact isPre_nil_of_ne hsep
      | cons c rest =>
          by_cases hc : isPre sep (c :: rest) = true
          · rw [splitOnL_cons_pos c rest hsep hc, List.mem_cons] at ht
            rcases ht with ht | ht
            · subst ht
              rw [List.drop_nil]
              exact isPre_nil_of_ne hsep
            · obtain ⟨r, hr⟩ := (isPre_iff sep (c :: rest)).mp hc
              have hdrop : (c :: rest).drop sep.length = r := by
                rw [hr]
                exact List.drop_left sep r
              have hrlen : r.length ≤ n := by
                have h1 : (c :: rest).length = (sep ++ r).length := by rw [hr]
                have h2 : 0 < sep.length := List.length_pos.mpr hsep
                simp only [List.length_cons, List.length_append] at h1
                simp only [List.length_cons] at hs
                omega
              rw [hdrop] at ht
              exact ih r hrlen t ht i
          · rw [splitOnL_cons_neg c rest (fun hh => hc hh.2)] at ht
            have hrlen : rest.length ≤ n := by
              simp only [List.length_cons] at hs
              omega
            cases hsp : splitOnL sep rest with
            | nil => exact absurd hsp (splitOnL_ne_nil sep rest)
            | cons t0 ts0 =>
                rw [hsp] at ht
                rw [List.mem_cons] at ht
                rcases ht with ht | ht
                · subst ht
                  cases i with
                  | zero =>
                      simp only [List.drop_zero]
                      by_contra hpos
                      have hpre : isPre sep (c :: t0) = true := by
                        cases hip : isPre sep (c :: t0) with
                        | true => rfl
                        | false => exact absurd hip hpos
                      obtain ⟨r1, hr1⟩ := (isPre_iff sep (c :: t0)).mp hpre
                      obtain ⟨r2, hr2⟩ := splitOnL_head sep rest t0 ts0 hsp
                      have : isPre sep (c :: rest) = true := by
                        rw [isPre_iff]
                        exact ⟨r1 ++ r2, by rw [hr2, ← List.append_assoc, ← hr1]; rfl⟩
                      exact hc this
                  | succ j =>
                      rw [List.drop_succ_cons]
                      exact ih rest hrlen t0
                        (by rw [hsp]; exact List.mem_cons_self t0 ts0) j
                · exact ih rest hrlen t
                    (by rw [hsp]; exact List.mem_cons_of_mem t0 ht) i

theorem splitOnL_no_occurrence (sep s : List Char) (hsep : sep ≠ []) :
    ∀ t ∈ splitOnL sep s, ∀ i, isPre sep (t.drop i) = false :=
  splitOnL_no_occurrence_aux sep hsep s.length s (Nat.le_refl _)

theorem splitOnL_all_outside (sep : List Char) (hsep : sep ≠ []) :
    ∀ (t : List Char), (∀ c ∈ t, c ∉ sep) → splitOnL sep t = [t] := by
  intro t
  induction t with
  | nil => intro _; exact splitOnL_nil sep
  | cons c t2 ih =>
      intro h
      obtain ⟨u, us, hu⟩ : ∃ u us, sep = u :: us := by
        cases sep with
        | nil => exact absurd rfl hsep
        | cons u us => exact ⟨u, us, rfl⟩
      have hne : u ≠ c := by
        intro hh
        subst hh
        exact h u (List.mem_cons_self u t2) (by rw [hu]; exact List.mem_cons_self u us)
      have hpre : isPre sep (c :: t2) = false := by
        rw [hu]
        exact isPre_cons_of_ne_head hne
      rw [splitOnL_cons_neg c t2 (fun hh => by rw [hpre] at hh; exact Bool.false_ne_true hh.2)]
      rw [ih fun d hd => h d (List.mem_cons_of_mem c hd)]

theorem splitOnL_append_sep (sep : List Char) (hsep : sep ≠ []) :
    ∀ (t r : List Char), (∀ c ∈ t, c ∉ sep) →
      splitOnL sep (t ++ sep ++ r) = t :: splitOnL sep r := by
  intro t
  induction t with
  | nil =>
      intro r _
      obtain ⟨u, us, hu⟩ : ∃ u us, sep = u :: us := by
        cases sep with
        | nil => exact absurd rfl hsep
        | cons u us => exact ⟨u, us, rfl⟩
      have hpre : isPre sep (sep ++ r) = true := (isPre_iff sep (sep ++ r)).mpr ⟨r, rfl⟩
      have hcons : sep ++ r = u :: (us ++ r) := by rw [hu]; rfl
      rw [List.nil_append]
      rw [hcons] at hpre ⊢
      rw [splitOnL_cons_pos u (us ++ r) hsep hpre, ← hcons, List.drop_left sep r]
  | cons c t2 ih =>
      intro r h
      obtain ⟨u, us, hu⟩ : ∃ u us, sep = u :: us := by
        cases sep with
        | nil => exact absurd rfl hsep
        | cons u us => exact ⟨u, us, rfl⟩
      have hne : u ≠ c := by
        intro hh
        subst hh
        exact h u (List.mem_cons_self u t2) (by rw [hu]; exact List.mem_cons_self u us)
      have hstep : (c :: t2) ++ sep ++ r = c :: (t2 ++ sep ++ r) := by simp
      rw [hstep]
      have hpre : isPre sep (c :: (t2 ++ sep ++ r)) = false := by
        rw [hu]
        exact isPre_cons_of_ne_head hne
      rw [splitOnL_cons_neg c (t2 ++ sep ++ r)
        (fun hh => by rw [hpre] at hh; exact Bool.false_ne_true hh.2)]
      rw [ih r fun d hd => h d (List.mem_cons_of_mem c hd)]

theorem splitOnL_joinSep (sep : List Char) (hsep : sep ≠ []) :
    ∀ (toks : List (List Char)), toks ≠ [] →
      (∀ t ∈ toks, ∀ c ∈ t, c ∉ sep) →
      splitOnL sep (joinSep sep toks) = toks := by
  intro toks
  induction toks with
  | nil => intro h _; exact absurd rfl h
  | cons t ts ih =>
      intro _ hout
      cases ts with
      | nil =>
          rw [joinSep]
          exact splitOnL_all_outside sep hsep t (hout t (List.mem_cons_self t []))
      | cons t2 ts2 =>
          rw [joinSep, splitOnL_append_sep sep hsep t (joinSep sep (t2 :: ts2))
            (hout t (List.mem_cons_self t (t2 :: ts2)))]
          rw [ih (List.cons_ne_nil t2 ts2) fun u hu c hc =>
            hout u (List.mem_cons_of_mem t hu) c hc]

/-! ## Split lemmas (whitespace runs) -/

theorem dropWhile_head_false {p : Char → Bool} :
    ∀ {l : List Char} {x : Char} {xs : List Char}, l.dropWhile p = x :: xs → p x = false := by
  intro l
  induction l with
  | nil => intro x xs h; exact absurd h (by simp)
  | cons a as ih =>
      intro x xs h
      rw [List.dropWhile_cons] at h
      by_cases hp : p a = true
      · rw [if_pos hp] at h
        exact ih h
      · rw [if_neg hp] at h
        injection h with h1 _
        subst h1
        exact Bool.eq_false_iff.mpr hp

theorem splitWs_ws_cons :
    ∀ (rest : List Char) (c : Char), isJsWs c = true →
      splitWs (c :: rest) = [] :: splitWs (rest.dropWhile isJsWs) := by
  intro rest
  induction rest with
  | nil =>
      intro c h
      rw [splitWs, if_pos h]
      rfl
  | cons d r2 ih =>
      intro c h
      by_cases hd : isJsWs d = true
      · have h1 : splitWs (c :: d :: r2) = splitWs (d :: r2) := by
          rw [splitWs, if_pos h]
          simp only [hd, if_true]
        rw [h1, ih d hd, List.dropWhile_cons, if_pos hd]
      · have hdf : isJsWs d = false := Bool.eq_false_iff.mpr hd
        have h1 : splitWs (c :: d :: r2) = [] :: splitWs (d :: r2) := by
          rw [splitWs, if_pos h, if_neg (by rw [hdf]; exact Bool.false_ne_true)]
        rw [h1, List.dropWhile_cons, if_neg hd]

theorem splitWs_cons_nws (c : Char) (rest : List Char) (hc : isJsWs c = false) :
    splitWs (c :: rest) =
      match splitWs rest with
      | [] => [[c]]
      | t :: ts => (c :: t) :: ts := by
  have hcn : ¬(isJsWs c = true) := by rw [hc]; exact Bool.false_ne_true
  cases rest with
  | nil =>
      conv_lhs => rw [splitWs]
      rw [if_neg hcn]
  | cons d r =>
      conv_lhs => rw [splitWs]
      rw [if_neg hcn]

theorem splitWs_wsFree :
    ∀ (t : List Char), (∀ c ∈ t, isJsWs c = false) → splitWs t = [t] := by
  intro t
  induction t with
  | nil => intro _; rfl
  | cons c t2 ih =>
      intro h
      have hc : isJsWs c = false := h c (List.mem_cons_self c t2)
      rw [splitWs_cons_nws c t2 hc]
      rw [ih fun d hd => h d (List.mem_cons_of_mem c hd)]

theorem splitWs_append_ws :
    ∀ (t : List Char) (w : Char) (r : List Char),
      (∀ c ∈ t, isJsWs c = false) → isJsWs w = true →
      splitWs (t ++ w :: r) = t :: splitWs (r.dropWhile isJsWs) := by
  intro t
  induction t with
  | nil =>
      intro w r _ hw
      rw [List.nil_append]
      exact splitWs_ws_cons r w hw
  | cons c t2 ih =>
      intro w r h hw
      have hc : isJsWs c = false := h c (List.mem_cons_self c t2)
      rw [List.cons_append, splitWs_cons_nws c (t2 ++ w :: r) hc]
      rw [ih w r (fun d hd => h d (List.mem_cons_of_mem c hd)) hw]

theorem splitWs_joinSep :
    ∀ (toks : List (List Char)), toks ≠ [] →
      (∀ t ∈ toks, t ≠ [] ∧ ∀ c ∈ t, isJsWs c = false) →
      splitWs (joinSep ['\x20'] toks) = toks := by
  intro toks
  induction toks with
  | nil => intro h _; exact absurd rfl h
  | cons t ts ih =>
      intro _ hprops
      cases ts with
      | nil =>
          rw [joinSep]
          exact splitWs_wsFree t (hprops t (List.mem_cons_self t [])).2
      | cons t2 ts2 =>
          have hstep : joinSep ['\x20'] (t :: t2 :: ts2) =
              t ++ '\x20' :: joinSep ['\x20'] (t2 :: ts2) := by
            rw [joinSep, List.append_assoc]
            rfl
          rw [hstep]
          rw [splitWs_append_ws t '\x20' (joinSep ['\x20'] (t2 :: ts2))
            (hprops t (List.mem_cons_self t (t2 :: ts2))).2 (by decide)]
          obtain ⟨q, hq⟩ := joinSep_cons_start ['\x20'] t2 ts2
          obtain ⟨d, t2a, ht2⟩ : ∃ d t2a, t2 = d :: t2a := by
            cases ht2 : t2 with
            | nil =>
                exact absurd ht2
                  (hprops t2 (List.mem_cons_of_mem t (List.mem_cons_self t2 ts2))).1
            | cons d t2a => exact ⟨d, t2a, rfl⟩
          have hd : isJsWs d = false :=
            (hprops t2 (List.mem_cons_of_mem t (List.mem_cons_self t2 ts2))).2 d
              (by rw [ht2]; exact List.mem_cons_self d t2a)
          have hdropj : (joinSep ['\x20'] (t2 :: ts2)).dropWhile isJsWs =
              joinSep ['\x20'] (t2 :: ts2) := by
            rw [hq, ht2, List.cons_append, List.dropWhile_cons, if_neg (by rw [hd]; exact Bool.false_ne_true)]
          rw [hdropj]
          rw [ih (List.cons_ne_nil t2 ts2)
            fun u hu => hprops u (List.mem_cons_of_mem t hu)]

theorem nonWsRuns_nil : nonWsRuns [] = [] := by rw [nonWsRuns]

theorem nonWsRuns_cons_ws {c : Char} (rest : List Char) (h : isJsWs c = true) :
    nonWsRuns (c :: rest) = nonWsRuns rest := by
  rw [nonWsRuns, if_pos h]

theorem nonWsRuns_cons_nws {c : Char} (rest : List Char) (h : isJsWs c = false) :
    nonWsRuns (c :: rest) =
      (c :: rest.takeWhile fun x => !isJsWs x) ::
        nonWsRuns (rest.dropWhile fun x => !isJsWs x) := by
  rw [nonWsRuns, if_neg (by rw [h]; exact Bool.false_ne_true)]

theorem nonWsRuns_dropWhile : ∀ (l : List Char), nonWsRuns (l.dropWhile isJsWs) = nonWsRuns l := by
  intro l
  induction l with
  | nil => rfl
  | cons c l2 ih =>
      by_cases hc : isJsWs c = true
      · rw [List.dropWhile_cons, if_pos hc, ih, nonWsRuns_cons_ws l2 hc]
      · rw [List.dropWhile_cons, if_neg hc]

theorem splitWs_filter_aux :
    ∀ (n : Nat) (s : List Char), s.length ≤ n →
      (splitWs s).filter (fun t => decide (t ≠ [])) = nonWsRuns s := by
  intro n
  induction n with
  | zero =>
      intro s hs
      have hs0 : s = [] := List.length_eq_zero.mp (Nat.le_zero.mp hs)
      subst hs0
      rw [nonWsRuns_nil]
      rfl
  | succ n ih =>
      intro s hs
      cases s with
      | nil =>
          rw [nonWsRuns_nil]
          rfl
      | cons c rest =>
          by_cases hc : isJsWs c = true
          · have hlen2 : (rest.dropWhile isJsWs).length ≤ n := by
              have h1 := (List.dropWhile_sublist (l := rest) isJsWs).length_le
              simp only [List.length_cons] at hs
              omega
            rw [splitWs_ws_cons rest c hc]
            have hdropempty :
                (([] : List Char) :: splitWs (rest.dropWhile isJsWs)).filter
                  (fun t => decide (t ≠ [])) =
                (splitWs (rest.dropWhile isJsWs)).filter (fun t => decide (t ≠ [])) := by
              simp
            rw [hdropempty, ih (rest.dropWhile isJsWs) hlen2, nonWsRuns_dropWhile rest,
              nonWsRuns_cons_ws rest hc]
          · have hcf : isJsWs c = false := Bool.eq_false_iff.mpr hc
            have htw : ∀ x ∈ rest.takeWhile (fun x => !isJsWs x), isJsWs x = false := by
              intro x hx
              have h1 := List.mem_takeWhile_imp hx
              simpa using h1
            cases hr : rest.dropWhile (fun x => !isJsWs x) with
            | nil =>
                have hall : rest.takeWhile (fun x => !isJsWs x) = rest := by
                  have h1 := List.takeWhile_append_dropWhile (p := fun x => !isJsWs x) (l := rest)
                  rw [hr, List.append_nil] at h1
                  exact h1
                have hrest : ∀ x ∈ rest, isJsWs x = false := by
                  intro x hx
                  exact htw x (by rw [hall]; exact hx)
                rw [splitWs_wsFree (c :: rest) ?hfree]
                case hfree =>
                  intro x hx
                  rcases List.mem_cons.mp hx with hx | hx
                  · subst hx; exact hcf
                  · exact hrest x hx
                rw [nonWsRuns_cons_nws rest hcf, hr, nonWsRuns_nil, hall]
                simp
            | cons w r2 =>
                have hwt : isJsWs w = true := by
                  have h1 := dropWhile_head_false hr
                  simpa using h1
                have hsplit : c :: rest = (c :: rest.takeWhile fun x => !isJsWs x) ++ w :: r2 := by
                  conv_lhs =>
                    rw [← List.takeWhile_append_dropWhile (p := fun x => !isJsWs x) (l := rest)]
                  rw [hr]
                  rfl
                have hlen2 : (r2.dropWhile isJsWs).length ≤ n := by
                  have h1 := (List.dropWhile_sublist (l := r2) isJsWs).length_le
                  have h2 := (List.dropWhile_sublist (l := rest) (fun x => !isJsWs x)).length_le
                  rw [hr] at h2
                  simp only [List.length_cons] at hs h2
                  omega
                rw [nonWsRuns_cons_nws rest hcf, hr, nonWsRuns_cons_ws r2 hwt]
                conv_lhs => rw [hsplit]
                rw [splitWs_append_ws (c :: rest.takeWhile fun x => !isJsWs x) w r2
                  ?hfree2 hwt]
                case hfree2 =>
                  intro x hx
                  rcases List.mem_cons.mp hx with hx | hx
                  · subst hx; exact hcf
                  · exact htw x hx
                have hkeep :
                    ((c :: rest.takeWhile fun x => !isJsWs x) ::
                        splitWs (r2.dropWhile isJsWs)).filter (fun t => decide (t ≠ [])) =
                    (c :: rest.takeWhile fun x => !isJsWs x) ::
                      (splitWs (r2.dropWhile isJsWs)).filter (fun t => decide (t ≠ [])) := by
                  simp
                rw [hkeep, ih (r2.dropWhile isJsWs) hlen2, nonWsRuns_dropWhile r2]

theorem splitWs_filter (s : List Char) :
    (splitWs s).filter (fun t => decide (t ≠ [])) = nonWsRuns s :=
  splitWs_filter_aux s.length s (Nat.le_refl _)

theorem decodeParts_filter (key : List Char) :
    ∀ (ps : List (List Char)),
      decodeParts key ps = decodeParts key (ps.filter fun p => decide (p ≠ [])) := by
  intro ps
  induction ps with
  | nil => rfl
  | cons p ps ih =>
      by_cases hp : p = []
      · subst hp
        rw [decodeParts, if_pos rfl, ih]
        congr 1
      · have hfil : (p :: ps).filter (fun q => decide (q ≠ [])) =
            p :: ps.filter (fun q => decide (q ≠ [])) := by
          simp [hp]
        rw [hfil]
        simp only [decodeParts, if_neg hp]
        rw [ih]

/-- C7: with separator a single space the decoder splits on maximal runs of
whitespace (the non-empty tokens are exactly the maximal non-whitespace
runs); with any other non-empty separator it splits exactly at the literal
separator occurrences (joining the parts with the separator restores the
text, and no part contains an occurrence of the separator); and empty parts
are discarded without affecting the result or the error flag. -/
theorem decode_split_behavior (sep s key : List Char) (ps : List (List Char))
    (hsep : sep ≠ []) :
    joinSep sep (splitOnL sep s) = s ∧
    (∀ t ∈ splitOnL sep s, ∀ i, isPre sep (t.drop i) = false) ∧
    (splitWs s).filter (fun t => decide (t ≠ [])) = nonWsRuns s ∧
    decodeParts key ps = decodeParts key (ps.filter fun p => decide (p ≠ [])) :=
  ⟨joinSep_splitOnL sep s hsep, splitOnL_no_occurrence sep s hsep,
    splitWs_filter s, decodeParts_filter key ps⟩

/-- Witness for C7 at a doubled separator: text "1,,2" with separator ",",
and a part list containing an empty token. -/
theorem decode_split_behavior_witness :
    joinSep [','] (splitOnL [','] ['1', ',', ',', '2']) = ['1', ',', ',', '2'] ∧
    (∀ t ∈ splitOnL [','] ['1', ',', ',', '2'], ∀ i, isPre [','] (t.drop i) = false) ∧
    (splitWs ['1', ',', ',', '2']).filter (fun t => decide (t ≠ [])) =
      nonWsRuns ['1', ',', ',', '2'] ∧
    decodeParts ['A', 'B'] [['1'], [], ['5']] =
      decodeParts ['A', 'B'] ([['1'], [], ['5']].filter fun p => decide (p ≠ [])) :=
  decode_split_behavior [','] ['1', ',', ',', '2'] ['A', 'B'] [['1'], [], ['5']] (by decide)

/-! ## Round trip -/

theorem encodeChars_mapped (K : List Char) (I : List Char) (hsub : ∀ c ∈ I, c ∈ K) :
    (encodeChars (generateKeyMap K) I).1 = I.map fun c => natToDec (firstIdx c K + 1) := by
  rw [encodeChars_eq]
  apply List.map_congr_left
  intro c hc
  rw [generateKeyMap_maps_first_occurrence K c (hsub c hc)]

theorem decodeParts_cons_some_in (key p : List Char) (ps : List (List Char)) (v : Int)
    (hp : p ≠ []) (hv : parseIntJS p = some v) (hin : 0 < v ∧ v ≤ (key.length : Int)) :
    decodeParts key (p :: ps) =
      (key.getD ((v - 1).toNat) '?' :: (decodeParts key ps).1, (decodeParts key ps).2) := by
  rw [decodeParts, if_neg hp]
  simp only [hv]
  rw [if_pos hin]

theorem decodeParts_natToDec (K : List Char) :
    ∀ (I : List Char), (∀ c ∈ I, c ∈ K) →
      (decodeParts K (I.map fun c => natToDec (firstIdx c K + 1))).1 = I := by
  intro I
  induction I with
  | nil => intro _; rfl
  | cons c I2 ih =>
      intro hsub
      have hcK : c ∈ K := hsub c (List.mem_cons_self c I2)
      have hlt := firstIdx_lt_length hcK
      have hin : 0 < ((firstIdx c K + 1 : Nat) : Int) ∧
          ((firstIdx c K + 1 : Nat) : Int) ≤ (K.length : Int) := by
        constructor
        · omega
        · omega
      rw [List.map_cons,
        decodeParts_cons_some_in K _ _ _ natToDec_ne_nil (parseIntJS_natToDec _) hin]
      dsimp only
      have htn : (((firstIdx c K + 1 : Nat) : Int) - 1).toNat = firstIdx c K := by omega
      rw [htn, getD_firstIdx hcK, ih fun d hd => hsub d (List.mem_cons_of_mem c hd)]

/-- C1: round trip — for every key with no duplicate characters, every input
drawn from the key's characters, and every fixed non-empty separator whose
characters are not decimal digits, decoding the encoding returns the
original input. -/
theorem encode_decode_round_trip (K I sep : List Char)
    (hnd : K.Nodup) (hsub : ∀ c ∈ I, c ∈ K) (hsep : sep ≠ [])
    (hsepd : ∀ c ∈ sep, isDigitChar c = false) :
    (decodeString (encodeString I (generateKeyMap K) sep).result K sep).result = I := by
  by_cases hI : I = []
  · subst hI
    simp [encodeString, decodeString]
  · have hK : K ≠ [] := by
      obtain ⟨c, hc⟩ := List.exists_mem_of_ne_nil I hI
      intro h
      subst h
      exact List.not_mem_nil c (hsub c hc)
    have henc : (encodeString I (generateKeyMap K) sep).result
        = joinSep sep (I.map fun c => natToDec (firstIdx c K + 1)) := by
      rw [encodeString, if_neg hI]
      dsimp only
      rw [encodeChars_mapped K I hsub]
    have htoksprops : ∀ t ∈ I.map (fun c => natToDec (firstIdx c K + 1)),
        t ≠ [] ∧ ∀ ch ∈ t, isDigitChar ch = true := by
      intro t ht
      obtain ⟨c, _, rfl⟩ := List.mem_map.mp ht
      exact ⟨natToDec_ne_nil, fun ch hch => natToDec_digits ch hch⟩
    have htoksne : I.map (fun c => natToDec (firstIdx c K + 1)) ≠ [] := by
      cases I with
      | nil => exact absurd rfl hI
      | cons c0 I2 => simp
    have hencne : joinSep sep (I.map fun c => natToDec (firstIdx c K + 1)) ≠ [] := by
      cases I with
      | nil => exact absurd rfl hI
      | cons c0 I2 =>
          rw [List.map_cons]
          obtain ⟨q, hq⟩ :=
            joinSep_cons_start sep (natToDec (firstIdx c0 K + 1))
              (I2.map fun c => natToDec (firstIdx c K + 1))
          rw [hq]
          intro hcontra
          exact natToDec_ne_nil (List.append_eq_nil.mp hcontra).1
    have hguard : ¬(joinSep sep (I.map fun c => natToDec (firstIdx c K + 1)) = [] ∨ K = []) := by
      push_neg
      exact ⟨hencne, hK⟩
    rw [henc, decodeString, if_neg hguard, if_neg hsep]
    dsimp only
    by_cases hsp : sep = ['\x20']
    · subst hsp
      rw [if_pos rfl]
      rw [splitWs_joinSep (I.map fun c => natToDec (firstIdx c K + 1)) htoksne
        fun t ht => ⟨(htoksprops t ht).1,
          fun ch hch => digit_not_ws ((htoksprops t ht).2 ch hch)⟩]
      exact decodeParts_natToDec K I hsub
    · rw [if_neg hsp]
      rw [splitOnL_joinSep sep hsep (I.map fun c => natToDec (firstIdx c K + 1)) htoksne ?hout]
      case hout =>
        intro t ht ch hch hmem
        have hd := (htoksprops t ht).2 ch hch
        rw [hsepd ch hmem] at hd
        exact Bool.false_ne_true hd
      exact decodeParts_natToDec K I hsub

/-- Witness for C1: key "ABC", input "CABA", separator " " — decoding the
encoding returns "CABA". -/
theorem encode_decode_round_trip_witness :
    (decodeString
        (encodeString ['C', 'A', 'B', 'A'] (generateKeyMap ['A', 'B', 'C']) ['\x20']).result
        ['A', 'B', 'C'] ['\x20']).result = ['C', 'A', 'B', 'A'] :=
  encode_decode_round_trip ['A', 'B', 'C'] ['C', 'A', 'B', 'A'] ['\x20']
    (by decide) (by decide) (by decide) (by decide)
